import Mathlib

/-!
Verification of the OIM (Online Influence Maximization) repository's
natural-language specification against its source code.

The repository sources available are `main.cpp` (mode dispatch, graph
loading, evaluator tables, configuration handling) and
`src/OhsakaEvaluator.hpp` (the PMC evaluator: Tarjan SCC sampling,
DAG construction, BFS, gain computation with caches, seed selection).

Shallow embedding conventions:
* node ids (`unode_int`) are `Nat`;
* C++ `unordered_map`/`unordered_set` become association lists and
  insertion-ordered duplicate-free lists (the spec guarantees only that
  iteration order is stable within a run; we fix insertion order);
* the random draws `dist(gen) < edge.dist->sample(...)` made while
  sampling a live subgraph are determinized into a `List Bool` stream,
  one Bool per examined edge, consumed in traversal order;
* `float` accumulators become `ℚ` (the values are sums of small natural
  numbers divided by the sample count, exactly representable);
* unbounded C++ loops are given fuel; fuel exhaustion returns a default,
  and `none` at every fuel value models divergence.

The classes `Graph`, `Evaluator`, `Sampler` etc. are not part of the
provided sources; their small interface is modelled from the spec where
noted.
-/

namespace OIM

/-- Association-list lookup with a default, modelling C++ map reads
(`operator[]` on an absent key default-constructs; reads through `find`
are always guarded in the source before being dereferenced). -/
def lookD {α : Type} : List (Nat × α) → Nat → α → α
  | [], _, d => d
  | (k, v) :: rest, key, d => if k = key then v else lookD rest key d

/-- Association-list update: overwrite the entry for `key` if present,
append it otherwise.  Models C++ `map[key] = v`. -/
def setA {α : Type} : List (Nat × α) → Nat → α → List (Nat × α)
  | [], key, v => [(key, v)]
  | (k, w) :: rest, key, v =>
      if k = key then (k, v) :: rest else (k, w) :: setA rest key v

/-- Membership test for a key in an association list
(models C++ `map.find(key) != map.end()`). -/
def hasKey {α : Type} : List (Nat × α) → Nat → Bool
  | [], _ => false
  | (k, _) :: rest, key => k = key || hasKey rest key

/-- Set insertion for an insertion-ordered duplicate-free list
(models C++ `unordered_set::insert`). -/
def insertS (x : Nat) (s : List Nat) : List Nat :=
  if x ∈ s then s else s ++ [x]

/-- The six evaluator kinds instantiated by `main.cpp`. -/
inductive EvName where
  | CELF
  | Random
  | DiscountDegree
  | TIM
  | HighestDegree
  deriving DecidableEq, Repr

/-- Evaluator table of mode `real` (`main.cpp` lines 61-66): the vector
`evals` is filled with CELF, Random, DiscountDegree, TIM, HighestDegree
in that order and indexed by the `exploit` argument. -/
def realEvals : List EvName :=
  [EvName.CELF, EvName.Random, EvName.DiscountDegree, EvName.TIM,
   EvName.HighestDegree]

/-- Evaluator table of mode `prior` (`main.cpp` lines 97-101). -/
def priorEvals : List EvName :=
  [EvName.CELF, EvName.Random, EvName.DiscountDegree, EvName.TIM]

/-- Evaluator table of mode `explore` (`main.cpp` lines 144-148): the
vector is filled with Random, DiscountDegree, CELF, TIM in that order
and indexed by the `explore` argument. -/
def exploreEvals : List EvName :=
  [EvName.Random, EvName.DiscountDegree, EvName.CELF, EvName.TIM]

/-- Evaluator table of mode `egreedy` (`main.cpp` lines 195-199),
indexed by both the `exploit` and the `explore` argument. -/
def epsgreedyEvals : List EvName :=
  [EvName.CELF, EvName.Random, EvName.DiscountDegree, EvName.TIM]

/-- Evaluator table of mode `zsc` (`main.cpp` lines 305-309). -/
def zscoreEvals : List EvName :=
  [EvName.CELF, EvName.Random, EvName.DiscountDegree, EvName.TIM]

/-- Evaluator chosen by the if/else chain of mode `eg`
(`main.cpp` lines 265-277); `none` models the `exit(1)` branch. -/
def expgrEval (exploit : Nat) : Option EvName :=
  if exploit = 0 then some EvName.CELF
  else if exploit = 1 then some EvName.Random
  else if exploit = 2 then some EvName.DiscountDegree
  else if exploit = 3 then some EvName.TIM
  else none

/-- Modelled from the spec: the `Graph` adjacency store (`Graph.hpp` is
not among the provided sources; §3 and §4.1 of the spec describe it).
`nodes` is the node set in first-appearance order (the spec guarantees a
stable iteration order within a run, which we fix to insertion order);
`adj` maps a node to its outgoing targets in insertion order.  Edge
influence distributions are irrelevant after the random draws have been
determinized into a Bool stream, so they are not stored. -/
structure Grph where
  nodes : List Nat
  adj : List (Nat × List Nat)
  deriving DecidableEq, Repr

/-- The empty graph. -/
def Grph.empty : Grph := ⟨[], []⟩

/-- Modelled from the spec (§3): register a node; nodes are implicit in
the edge list and kept in first-appearance order. -/
def Grph.add_node (g : Grph) (u : Nat) : Grph :=
  { g with nodes := if u ∈ g.nodes then g.nodes else g.nodes ++ [u] }

/-- Modelled from the spec (§4.1): `add_edge(u, v, dist)` appends the
arc; both endpoints become nodes of the graph. -/
def Grph.add_edge (g : Grph) (u v : Nat) : Grph :=
  let g := (g.add_node u).add_node v
  { g with adj := setA g.adj u (lookD g.adj u [] ++ [v]) }

/-- `Graph::get_nodes()`. -/
def Grph.get_nodes (g : Grph) : List Nat := g.nodes

/-- `Graph::has_node(u)`. -/
def Grph.has_node (g : Grph) (u : Nat) : Bool := u ∈ g.nodes

/-- `Graph::has_neighbours(u)`: whether `u` has outgoing arcs. -/
def Grph.has_neighbours (g : Grph) (u : Nat) : Bool :=
  lookD g.adj u [] ≠ []

/-- `Graph::get_neighbours(u)`: the outgoing targets of `u`. -/
def Grph.get_neighbours (g : Grph) (u : Nat) : List Nat :=
  lookD g.adj u []

/-- Modelled from the spec (§4.1): `remove_node(u)` drops `u` and all
its outgoing arcs.  Arcs of other nodes pointing at `u` stay in the
adjacency store (the evaluator guards traversals with `has_node`). -/
def Grph.remove_node (g : Grph) (u : Nat) : Grph :=
  { nodes := g.nodes.erase u
    adj := g.adj.filter (fun p => p.1 ≠ u) }

/-- The arcs of a graph, in adjacency-store order. -/
def Grph.edgeList (g : Grph) : List (Nat × Nat) :=
  g.adj.foldr (fun p acc => p.2.map (fun t => (p.1, t)) ++ acc) []

/-- One whitespace-separated token of the graph input stream.
`num n` is a token extractable as `unsigned long` (and as `double`),
`real q` is extractable only as `double`, `bad` fails both. -/
inductive Tok where
  | num (n : Nat)
  | real (q : ℚ)
  | bad
  deriving DecidableEq, Repr

/-- The graph-loading loop shared by every mode of `main.cpp`
(e.g. lines 49-54 of `real`, lines 335-340 of `benchmark`):
`while (file >> src >> tgt >> prob) { graph.add_edge(src, tgt, dst); edges++; }`.
`src` and `tgt` are extracted as `unsigned long` (only a `num` token
succeeds), `prob` as `double` (a `num` or `real` token succeeds).  Any
extraction failure - a non-numeric token or end of stream - makes the
condition false and simply ends the loop; the probability is stored
without any range check.  Returns the graph, the edge counter, the
recorded probabilities in order, and the stream remainder from the
start of the failed read. -/
def loadGraph : List Tok → Grph → Nat → List ℚ →
    Grph × Nat × List ℚ × List Tok
  | Tok.num src :: Tok.num tgt :: Tok.num p :: rest, g, edges, probs =>
      loadGraph rest (g.add_edge src tgt) (edges + 1) (probs ++ [(p : ℚ)])
  | Tok.num src :: Tok.num tgt :: Tok.real q :: rest, g, edges, probs =>
      loadGraph rest (g.add_edge src tgt) (edges + 1) (probs ++ [q])
  | toks, g, edges, probs => (g, edges, probs, toks)

/-- Outcome of the configuration phase of a mode: proceed into the
strategy with a chosen evaluator, terminate via `exit(1)`, or terminate
abnormally via an uncaught exception (`std::vector::at` throwing
`std::out_of_range` reaches `std::terminate`, which aborts the process
- this is not `exit(1)`). -/
inductive ConfigOutcome where
  | proceed (e : EvName)
  | exitOne
  | terminateAbort
  deriving DecidableEq, Repr

/-- Configuration handling of mode `real` (`main.cpp` lines 58-75):
`exploit`, `budget` and `k` are read with `atoi` and used without any
validation; the only failure point is `evals.at(exploit)`, which throws
when the index is out of range.  `k` and `budget` are never checked. -/
def realConfigOutcome (exploit : Nat) (_budget _k : Nat) : ConfigOutcome :=
  match realEvals.get? exploit with
  | some e => ConfigOutcome.proceed e
  | none => ConfigOutcome.terminateAbort

/-- Configuration handling of mode `eg` (`main.cpp` lines 265-277):
the evaluator index is validated by an if/else chain ending in
`std::cerr << ...; exit(1)`; `budget` and `k` are never checked. -/
def expgrConfigOutcome (exploit : Nat) (_budget _k : Nat) : ConfigOutcome :=
  match expgrEval exploit with
  | some e => ConfigOutcome.proceed e
  | none => ConfigOutcome.exitOne

/-!
`OhsakaEvaluator` (`src/OhsakaEvaluator.hpp`).  The mutable member
state touched by Tarjan's algorithm is gathered in `TState`; the random
draw `dist(gen) < edge.dist->sample(sampler.get_type())` made for every
examined edge is determinized as the next Bool of `stream` (`true` =
the edge is sampled live).
-/

/-- The `OhsakaEvaluator` members used by `tarjan`/`scc`:
`index`, `lowlink`, `pred`, `visited`, `vis_stack` (head = top),
`cur_index`, plus the locals `cur_num_cc`, `cur_cc`, `cur_cc_list`
of one `tarjan` call, and the remaining random stream. -/
structure TState where
  indexM : List (Nat × Nat)
  lowlink : List (Nat × Nat)
  pred : List (Nat × Nat)
  visited : List Nat
  visStack : List Nat
  curIndex : Nat
  curNumCC : Nat
  ccM : List (Nat × Nat)
  ccListM : List (Nat × List Nat)
  stream : List Bool
  deriving DecidableEq, Repr

/-- Consume one random draw; an exhausted stream (which the C++ never
sees, `mt19937` being unbounded) reads as a dead edge. -/
def drawB (st : TState) : Bool × TState :=
  match st.stream with
  | [] => (false, st)
  | b :: rest => (b, { st with stream := rest })

/-- The `do { ... } while (cur_node != node)` loop closing an SCC in
`scc` (lines 204-213): pop the visitation stack down to `node`,
erasing each popped node from `visited`, assigning it the current SCC
number in `cur_cc` and adding it to `cur_cc_list`; finally increment
`cur_num_cc`.  The first argument is the stack being consumed (kept in
sync with `st.visStack`); an empty stack cannot occur in source runs. -/
def popSCC (node : Nat) : List Nat → TState → TState
  | [], st => { st with curNumCC := st.curNumCC + 1 }
  | cur :: rest, st =>
    let st' := { st with
      visStack := rest
      visited := st.visited.erase cur
      ccM := setA st.ccM cur st.curNumCC
      ccListM := setA st.ccListM st.curNumCC
        (insertS cur (lookD st.ccListM st.curNumCC [])) }
    if cur = node then { st' with curNumCC := st'.curNumCC + 1 }
    else popSCC node rest st'

/-- `OhsakaEvaluator::scc` (lines 180-215): one recursive Tarjan visit
over the live subgraph sampled edge by edge.  For every examined edge a
draw is consumed; a live edge to an unindexed target records the DFS
predecessor and recurses, a live edge to an indexed target folds
`index[target]` into `lowlink[node]` (the source has no on-stack check
here, which is embedded as written).  Fuel bounds the recursion depth;
graph traversals exhaust it never in the runs below. -/
def scc (g : Grph) : Nat → Nat → TState → TState
  | 0, _, st => st
  | fuel + 1, node, st =>
    let st := { st with
      indexM := setA st.indexM node st.curIndex
      lowlink := setA st.lowlink node st.curIndex
      curIndex := st.curIndex + 1
      visited := insertS node st.visited
      visStack := node :: st.visStack }
    let st :=
      if g.has_neighbours node then
        (g.get_neighbours node).foldl (fun st tgt =>
          let (live, st) := drawB st
          if live then
            if hasKey st.indexM tgt then
              let m := min (lookD st.lowlink node 0) (lookD st.indexM tgt 0)
              { st with lowlink := setA st.lowlink node m }
            else
              let st := { st with pred := setA st.pred tgt node }
              let st := scc g fuel tgt st
              let m := min (lookD st.lowlink node 0) (lookD st.lowlink tgt 0)
              { st with lowlink := setA st.lowlink node m }
          else st) st
      else st
    if lookD st.lowlink node 0 = lookD st.indexM node 0 then
      popSCC node st.visStack st
    else st

/-- Result of one `tarjan` call: the SCC maps pushed onto `cc` /
`cc_list`, the DFS predecessor map, the contracted graph pushed onto
`graphs`, and the remaining random stream. -/
structure TarjanResult where
  ccR : List (Nat × Nat)
  ccListR : List (Nat × List Nat)
  predR : List (Nat × Nat)
  dag : Grph
  streamR : List Bool
  deriving DecidableEq, Repr

/-- The body of the DAG-building loop of `tarjan` (lines 168-175) for
one `pred` entry `vp = (node, predecessor)`: add the node, and add the
arc `cc[vp.second] → cc[vp.first]` when the two SCC ids differ. -/
def dagBuildStep (ccM : List (Nat × Nat)) (dag : Grph)
    (vp : Nat × Nat) : Grph :=
  let dag := dag.add_node vp.1
  if lookD ccM vp.2 0 ≠ lookD ccM vp.1 0 then
    dag.add_edge (lookD ccM vp.2 0) (lookD ccM vp.1 0)
  else dag

/-- `OhsakaEvaluator::tarjan` (lines 152-178): clear the bookkeeping,
run `scc` from every not-yet-indexed node (recording `pred[node] =
node` for roots), then build the contracted graph from the `pred` map
alone: every key becomes a node, and an edge
`cc[pred[v]] → cc[v]` is added whenever the two SCC ids differ (the
source comments this is "actually, most probably a spanning tree"). -/
def tarjan (g : Grph) (stream : List Bool) (fuel : Nat) : TarjanResult :=
  let st0 : TState := ⟨[], [], [], [], [], 0, 0, [], [], stream⟩
  let st := g.get_nodes.foldl (fun st node =>
    if hasKey st.indexM node then st
    else
      let st := { st with pred := setA st.pred node node }
      scc g fuel node st) st0
  let dag := st.pred.foldl (dagBuildStep st.ccM) Grph.empty
  ⟨st.ccM, st.ccListM, st.pred, dag, st.stream⟩

/-- The body of the neighbour loop of `OhsakaEvaluator::bfs` (lines
228-239) for one target, on an accumulator `(q, visited, col, stopped)`
where `stopped` records that the `return` of the `to` mode has fired
(ending the call, so later neighbours are not examined).  An unvisited
target is enqueued and marked; with `to = false` it is collected, with
`to = true` reaching `toNode` collects the start node and stops. -/
def bfsStep (_g : Grph) (toFlag : Bool) (toNode startNode : Nat)
    (acc : List Nat × List Nat × List Nat × Bool) (tgt : Nat) :
    List Nat × List Nat × List Nat × Bool :=
  match acc with
  | (q, visited, col, true) => (q, visited, col, true)
  | (q, visited, col, false) =>
    if tgt ∈ visited then (q, visited, col, false)
    else
      let q := q ++ [tgt]
      let visited := insertS tgt visited
      if toFlag = false then (q, visited, insertS tgt col, false)
      else if tgt = toNode then (q, visited, insertS startNode col, true)
      else (q, visited, col, false)

/-- The loop of `OhsakaEvaluator::bfs` (lines 217-242), fuelled on the
number of queue pops.  `q` is the queue (head = front), `visited` the
local visited set, `col` the collector passed by reference. -/
def bfsGo (g : Grph) (toFlag : Bool) (toNode startNode : Nat) :
    Nat → List Nat → List Nat → List Nat → List Nat
  | 0, _, _, col => col
  | _ + 1, [], _, col => col
  | fuel + 1, cur :: qrest, visited, col =>
    let visited := insertS cur visited
    let neighs := if g.has_neighbours cur then g.get_neighbours cur else []
    match neighs.foldl (bfsStep g toFlag toNode startNode)
        (qrest, visited, col, false) with
    | (q', visited', col', stopped) =>
      if stopped then col'
      else bfsGo g toFlag toNode startNode fuel q' visited' col'

/-- `OhsakaEvaluator::bfs(node, i, col, to, to_node)`: queue and local
visited set start holding `node`; `col` may already hold earlier
results (the ancestors set is accumulated over many calls). -/
def bfs (g : Grph) (node : Nat) (col : List Nat) (toFlag : Bool)
    (toNode : Nat) (fuel : Nat) : List Nat :=
  bfsGo g toFlag toNode node fuel [node] [node] col

/-- The "Removing activated nodes" step of `select` (lines 107-113):
`for (auto node : activated) for (auto cc : cc_list[i]) { if
(cc.second.find(node) != cc.second.end()) cc.second.erase(node); }`.
The inner range-for binds each map entry by value (`auto cc`, not
`auto&`), so the conditional `erase` is applied to the copy `cc`; the
entry kept in `cc_list[i]` is the original one. -/
def removingActivatedNodes (activated : List Nat)
    (ccl : List (Nat × List Nat)) : List (Nat × List Nat) :=
  activated.foldl (fun acc node =>
    acc.map (fun cc =>
      let _copy := if node ∈ cc.2 then (cc.1, cc.2.erase node) else cc
      cc)) ccl

/-- The per-sample data fixed after the set-up phase of `select`:
`cc[i]`, `cc_list[i]` (after the removal step), `graphs[i]` (which
`update_dag` later shrinks), the ancestor set `A[i]`, the descendant
set `D[i]` and the hub `h[i]`. -/
structure SampleData where
  ccS : List (Nat × Nat)
  ccListS : List (Nat × List Nat)
  dag : Grph
  ancS : List Nat
  desS : List Nat
  hS : Nat
  deriving DecidableEq, Repr

/-- The per-sample caches `latest[i]` and `delta[i]` mutated by `gain`
and `update_dag`. -/
structure SampleCache where
  latestS : List (Nat × Bool)
  deltaS : List (Nat × ℚ)
  deriving DecidableEq, Repr

/-- The `while (Q.size() != 0)` loop of `gain` (lines 261-276), fuelled
on queue pops.  `v` is the contracted node whose `delta[i][v]` is being
accumulated (written through incrementally as in the source);
`emptySet` is `set.size() == 0`.  A popped `u` with `v ∈ A[i]`,
`u ∈ D[i]` and an empty seed set is skipped (`continue`); otherwise
`|cc_list[i][u]|` is added and the unvisited in-graph neighbours of `u`
are enqueued. -/
def gainLoop (sd : SampleData) (v : Nat) (emptySet : Bool) :
    Nat → List Nat → List Nat → List (Nat × ℚ) → List (Nat × ℚ)
  | 0, _, _, deltaS => deltaS
  | _ + 1, [], _, deltaS => deltaS
  | fuel + 1, u :: qrest, x, deltaS =>
    if v ∈ sd.ancS ∧ u ∈ sd.desS ∧ emptySet = true then
      gainLoop sd v emptySet fuel qrest x deltaS
    else
      let deltaS := setA deltaS v
        (lookD deltaS v 0 + ((lookD sd.ccListS u []).length : ℚ))
      let qx :=
        if sd.dag.has_neighbours u then
          (sd.dag.get_neighbours u).foldl (fun qx tgt =>
            if tgt ∉ qx.2 ∧ sd.dag.has_node tgt then
              (qx.1 ++ [tgt], insertS tgt qx.2)
            else qx) (qrest, x)
        else (qrest, x)
      gainLoop sd v emptySet fuel qx.1 qx.2 deltaS

/-- `OhsakaEvaluator::gain(i, node, set)` (lines 244-278): map `node`
to its contracted node `v = cc[i][node]`; return 0 if `v` left the
graph; return the cached `delta[i][v]` when `latest[i][v]`; otherwise
mark it latest and either prune (when `v ∈ A[i]` and the seed set is
empty, seed `delta[i][v]` with a recursive `gain` on the first member
of the hub's SCC - `*cc_list[i][h[i]].begin()`, whose dereference on an
empty set is undefined behaviour in C++ and reads as node 0 here) or
start from 0, then run the accumulation BFS from `v`.  Fuel bounds the
recursion and the loop. -/
def gain (sd : SampleData) : Nat → SampleCache → Nat → Bool →
    ℚ × SampleCache
  | 0, cache, _, _ => (0, cache)
  | fuel + 1, cache, node, emptySet =>
    let v := lookD sd.ccS node 0
    if sd.dag.has_node v = false then (0, cache)
    else if lookD cache.latestS v false then (lookD cache.deltaS v 0, cache)
    else
      let cache := { cache with latestS := setA cache.latestS v true }
      let cache :=
        if v ∈ sd.ancS ∧ emptySet = true then
          let r := gain sd fuel cache ((lookD sd.ccListS sd.hS []).headD 0)
            emptySet
          { r.2 with deltaS := setA r.2.deltaS v r.1 }
        else
          { cache with deltaS := setA cache.deltaS v 0 }
      let deltaS := gainLoop sd v emptySet (fuel + 1) [v] [v] cache.deltaS
      (lookD deltaS v 0, { cache with deltaS := deltaS })

/-- `OhsakaEvaluator::update_dag(i, node)` (lines 280-297): compute the
descendants `desc` of `t = cc[i][node]` by a collecting BFS, clear
`latest[i][v]` for every graph node `v` whose reach-BFS towards some
`u ∈ desc` is non-empty (the source breaks at the first such `u`; the
first hit is all that determines the write), then `remove_node` every
member of `desc`. -/
def update_dag (sd : SampleData) (cache : SampleCache) (node : Nat)
    (fuel : Nat) : SampleData × SampleCache :=
  let t := lookD sd.ccS node 0
  let desc := bfs sd.dag t [] false 0 fuel
  let latestS := sd.dag.get_nodes.foldl (fun lat v =>
    if lookD lat v false then
      if desc.any (fun u => !(bfs sd.dag v [] true u fuel).isEmpty) then
        setA lat v false
      else lat
    else lat) cache.latestS
  let dag := desc.foldl (fun g n => g.remove_node n) sd.dag
  ({ sd with dag := dag }, { cache with latestS := latestS })

/-- The body of the sampling loop of `select` (lines 90-128) for one
Monte-Carlo index `i`: run `tarjan` (consuming random draws), find the
hub (`deg >= max_val`, so ties go to the node iterated last, starting
from `max_node = 0`), run the no-op activated-removal step, collect the
hub's descendants `D[i]` and ancestors `A[i]`, and initialise the
`latest`/`delta` caches to `false`/`0` on the contracted graph's
nodes. -/
def sampleSetup (g : Grph) (activated : List Nat) (stream : List Bool)
    (fuel : Nat) : (SampleData × SampleCache) × List Bool :=
  let tr := tarjan g stream fuel
  let hub := tr.dag.get_nodes.foldl (fun mx node =>
    let deg := if tr.dag.has_neighbours node then
        (tr.dag.get_neighbours node).length else 0
    if deg ≥ mx.2 then (node, deg) else mx) (0, 0)
  let ccListS := removingActivatedNodes activated tr.ccListR
  let desS := bfs tr.dag hub.1 [] false 0 fuel
  let ancS := tr.dag.get_nodes.foldl (fun col node =>
    if node ≠ hub.1 ∧ node ∉ desS then bfs tr.dag node col true hub.1 fuel
    else col) []
  let latestS := tr.dag.get_nodes.foldl
    (fun m n => setA m n false) ([] : List (Nat × Bool))
  let deltaS := tr.dag.get_nodes.foldl
    (fun m n => setA m n 0) ([] : List (Nat × ℚ))
  ((⟨tr.ccR, ccListS, tr.dag, ancS, desS, hub.1⟩, ⟨latestS, deltaS⟩),
   tr.streamR)

/-- The `for (unsigned int i = 0; i < R_; i++)` sampling loop of
`select`: set up `R` samples, threading the random stream. -/
def selectSetup (g : Grph) (activated : List Nat) :
    Nat → List Bool → Nat → List (SampleData × SampleCache)
  | 0, _, _ => []
  | r + 1, stream, fuel =>
    let s := sampleSetup g activated stream fuel
    s.1 :: selectSetup g activated r s.2 fuel

/-- `for (unsigned int i = 0; i < R_; i++) tot_val += gain(i, v, set);`
(lines 136-137): sum the per-sample gains of candidate `v`, threading
every sample's caches. -/
def totalGain : List (SampleData × SampleCache) → Nat → Bool → Nat →
    ℚ × List (SampleData × SampleCache)
  | [], _, _, _ => (0, [])
  | (sd, c) :: rest, v, emptySet, fuel =>
    let r := gain sd fuel c v emptySet
    let rs := totalGain rest v emptySet fuel
    (r.1 + rs.1, (sd, r.2) :: rs.2)

/-- The body of the candidate scan (lines 133-143) for one node `v` of
`graph.get_nodes()`: an activated `v` is skipped; otherwise the
averaged gain `tot_val` is computed over all samples and `(t, val_max)`
is overwritten whenever `tot_val >= val_max`. -/
def selectStep (activated : List Nat) (R : Nat) (emptySet : Bool)
    (fuel : Nat) (acc : Nat × ℚ × List (SampleData × SampleCache))
    (v : Nat) : Nat × ℚ × List (SampleData × SampleCache) :=
  if v ∈ activated then acc
  else
    let r := totalGain acc.2.2 v emptySet fuel
    let tot := r.1 / (R : ℚ)
    if tot ≥ acc.2.1 then (v, tot, r.2) else (acc.1, acc.2.1, r.2)

/-- The candidate scan of one iteration of the seed-selection loop
(lines 131-144), written as in the source: `t` starts at 0 and
`val_max` at 0; every non-activated `v` (in `graph.get_nodes()` order)
whose averaged gain satisfies `tot_val >= val_max` overwrites both. -/
def selectTop (nodesOrder activated : List Nat) (R : Nat)
    (emptySet : Bool) (fuel : Nat)
    (samples : List (SampleData × SampleCache)) :
    Nat × ℚ × List (SampleData × SampleCache) :=
  nodesOrder.foldl (selectStep activated R emptySet fuel) (0, 0, samples)

/-- The seed-selection loop `while (set.size() < k)` (lines 130-147),
fuelled on iterations: scan for the best candidate, insert it into the
(unordered) seed set, update every sample's DAG, and repeat; `none`
models not having exited the loop within `fuel` iterations. -/
def selectLoop (g : Grph) (activated : List Nat) (k R fuelG : Nat) :
    Nat → List Nat → List (SampleData × SampleCache) → Option (List Nat)
  | 0, _, _ => none
  | fuel + 1, set, samples =>
    if set.length < k then
      let r := selectTop g.get_nodes activated R set.isEmpty fuelG samples
      let set := insertS r.1 set
      let samples := r.2.2.map (fun sc => update_dag sc.1 sc.2 r.1 fuelG)
      selectLoop g activated k R fuelG fuel set samples
    else some set

/-- `OhsakaEvaluator::select(graph, sampler, activated, k)` (lines
81-149) with `R_ = R`: sample `R` contracted graphs from the random
stream, then run the seed-selection loop. -/
def select (g : Grph) (activated : List Nat) (k R : Nat)
    (stream : List Bool) (fuel : Nat) : Option (List Nat) :=
  selectLoop g activated k R fuel fuel [] (selectSetup g activated R stream fuel)

/-- The `(candidate, averaged gain)` pairs examined by one candidate
scan of `select`, in iteration order, with the final cache states;
`selectTop` is exactly the running `tot_val >= val_max` maximum over
this list (proved below). -/
def candScan (activated : List Nat) (R : Nat) (emptySet : Bool)
    (fuel : Nat) : List Nat → List (SampleData × SampleCache) →
    List (Nat × ℚ) × List (SampleData × SampleCache)
  | [], samples => ([], samples)
  | v :: rest, samples =>
    if v ∈ activated then candScan activated R emptySet fuel rest samples
    else
      let r := totalGain samples v emptySet fuel
      let rs := candScan activated R emptySet fuel rest r.2
      ((v, r.1 / (R : ℚ)) :: rs.1, rs.2)

/-- The running maximum with `>=` acceptance, as in the source's
`if (tot_val >= val_max) { val_max = tot_val; t = v; }`: a later
element that ties the maximum replaces the earlier one. -/
def argmaxGE : List (Nat × ℚ) → Nat × ℚ → Nat × ℚ
  | [], acc => acc
  | (v, x) :: rest, acc =>
    argmaxGE rest (if x ≥ acc.2 then (v, x) else acc)

/-- One edge step in a graph: `v` is an outgoing target of `u`. -/
def EdgeStep (g : Grph) (u v : Nat) : Prop := v ∈ g.get_neighbours u

/-- Example graph with the single arc `0 → 1`. -/
def g01 : Grph := Grph.empty.add_edge 0 1

/-- Example graph with the arcs `0 → 1` and `1 → 0`. -/
def gCyc : Grph := (Grph.empty.add_edge 0 1).add_edge 1 0

/-- Example graph with the arcs `0 → 1`, `0 → 2` and `1 → 2`. -/
def gTri : Grph := ((Grph.empty.add_edge 0 1).add_edge 0 2).add_edge 1 2

/-- Whether the stream begins with three tokens that the extraction
`file >> src >> tgt >> prob` can consume as one edge line. -/
def startsTriple : List Tok → Bool
  | Tok.num _ :: Tok.num _ :: Tok.num _ :: _ => true
  | Tok.num _ :: Tok.num _ :: Tok.real _ :: _ => true
  | _ => false

/-- Token rendering of a list of well-formed `src tgt prob` edge lines
with fractional probabilities. -/
def tripleToks : List (Nat × Nat × ℚ) → List Tok
  | [] => []
  | (s, t, p) :: rest => Tok.num s :: Tok.num t :: Tok.real p :: tripleToks rest

/-- The graph obtained by adding the arcs of the triples in order. -/
def graphOfTriples (g : Grph) : List (Nat × Nat × ℚ) → Grph
  | [] => g
  | (s, t, _) :: rest => graphOfTriples (g.add_edge s t) rest

/-- C3, counterexample: in mode `explore` the evaluator vector is
filled Random, DiscountDegree, CELF, TIM (`main.cpp` lines 144-148),
so index 0 selects Random - not CELF as the claimed uniform table
states (CELF sits at index 2). -/
theorem c3_counterexample :
    exploreEvals.get? 0 = some EvName.Random ∧
    exploreEvals.get? 2 = some EvName.CELF ∧
    EvName.Random ≠ EvName.CELF := by
  decide

/-- C3, amended: modes `real`, `prior`, `egreedy`, `eg` and `zsc` index
their evaluators by the table 0=CELF, 1=Random, 2=DiscountDegree,
3=TIM (with 4=HighestDegree present only in `real`), but mode `explore`
uses the different table 0=Random, 1=DiscountDegree, 2=CELF, 3=TIM. -/
theorem c3_evaluator_tables :
    realEvals = [EvName.CELF, EvName.Random, EvName.DiscountDegree,
      EvName.TIM, EvName.HighestDegree] ∧
    priorEvals = [EvName.CELF, EvName.Random, EvName.DiscountDegree,
      EvName.TIM] ∧
    epsgreedyEvals = [EvName.CELF, EvName.Random, EvName.DiscountDegree,
      EvName.TIM] ∧
    zscoreEvals = [EvName.CELF, EvName.Random, EvName.DiscountDegree,
      EvName.TIM] ∧
    expgrEval 0 = some EvName.CELF ∧ expgrEval 1 = some EvName.Random ∧
    expgrEval 2 = some EvName.DiscountDegree ∧
    expgrEval 3 = some EvName.TIM ∧ expgrEval 4 = none ∧
    exploreEvals = [EvName.Random, EvName.DiscountDegree, EvName.CELF,
      EvName.TIM] := by
  decide

/-- C6: the seed set computed by `select` depends on the sampled random
draws: on the graph `0 → 1` with `activated = ∅`, `k = 1`, `R = 1`, a
live draw yields seed set `{0}` and a dead draw yields `{1}`.  The
`OhsakaEvaluator` constructor (line 79) seeds its `mt19937` as
`gen(rd())` from `std::random_device`, so no fixable RNG seed exists
and two runs do not share their draws - identical output across runs is
therefore not guaranteed, although `select` is a function of the drawn
stream. -/
theorem c6_stream_dependence :
    select g01 [] 1 1 [true] 30 = some [0] ∧
    select g01 [] 1 1 [false] 30 = some [1] ∧
    ([0] : List Nat) ≠ [1] := by
  refine ⟨?_, ?_, by decide⟩ <;> with_unfolding_all rfl

/-- C8, counterexample: in mode `real` an out-of-range evaluator index
is not an `exit(1)` validation error - `evals.at(exploit)` throws
`std::out_of_range`, which is uncaught and aborts via `std::terminate`;
and `k = 0`, `budget = 0` pass the (non-existent) validation of both
`real` and `eg` and the program proceeds. -/
theorem c8_counterexample :
    realConfigOutcome 9 1 1 = ConfigOutcome.terminateAbort ∧
    ConfigOutcome.terminateAbort ≠ ConfigOutcome.exitOne ∧
    realConfigOutcome 0 0 0 = ConfigOutcome.proceed EvName.CELF ∧
    expgrConfigOutcome 2 0 0 = ConfigOutcome.proceed EvName.DiscountDegree := by
  decide

/-- C8, amended: only mode `eg` validates the evaluator index, exiting
with code 1 exactly when the index exceeds 3; mode `real` never exits
with code 1 - an index beyond its 5-entry table aborts through an
uncaught exception instead - and neither mode inspects `budget` or `k`
at all. -/
theorem c8_exit_codes (e b k : Nat) :
    (expgrConfigOutcome e b k = ConfigOutcome.exitOne ↔ 4 ≤ e) ∧
    (realConfigOutcome e b k = ConfigOutcome.terminateAbort ↔ 5 ≤ e) ∧
    realConfigOutcome e b k ≠ ConfigOutcome.exitOne ∧
    realConfigOutcome e b k = realConfigOutcome e 0 0 ∧
    expgrConfigOutcome e b k = expgrConfigOutcome e 0 0 := by
  rcases e with _ | _ | _ | _ | _ | n <;>
    simp [realConfigOutcome, expgrConfigOutcome, expgrEval, realEvals]

/-- C9: the "Removing activated nodes" loop of `select` (lines 107-113)
leaves `cc_list[i]` unchanged for every activated set: the range-for
binds each SCC entry by value, so the `erase` mutates the copy, every
activated node remains a member of its SCC's set, and the SCC sizes
read by later `gain` computations are those of the unmodified map. -/
theorem c9_removing_activated_noop (activated : List Nat)
    (ccl : List (Nat × List Nat)) :
    removingActivatedNodes activated ccl = ccl := by
  induction activated generalizing ccl with
  | nil => rfl
  | cons a rest ih =>
    have hstep : (ccl.map (fun cc =>
        let _copy := if a ∈ cc.2 then (cc.1, cc.2.erase a) else cc
        cc)) = ccl := by
      induction ccl with
      | nil => rfl
      | cons c cs ihc => simp [ihc]
    have hrec : removingActivatedNodes (a :: rest) ccl
        = removingActivatedNodes rest (ccl.map (fun cc =>
            let _copy := if a ∈ cc.2 then (cc.1, cc.2.erase a) else cc
            cc)) := rfl
    rw [hrec, hstep]
    exact ih ccl

/-- When the stream does not start with a readable `src tgt prob`
triple, the loading loop's condition is false at once and the loop
body never runs. -/
theorem loadGraph_stuck (toks : List Tok) (g : Grph) (e : Nat)
    (p : List ℚ) (h : startsTriple toks = false) :
    loadGraph toks g e p = (g, e, p, toks) := by
  unfold loadGraph
  split
  · simp [startsTriple] at h
  · simp [startsTriple] at h
  · rfl

/-- C7, counterexample: graph loading is not fatal on malformed input.
On a stream whose second edge line has a non-numeric target token, the
loop returns normally with the single edge parsed before the bad token
and the rest of the stream unconsumed (silent truncation); a
probability of 7 (outside [0,1]) is accepted and stored; an empty edge
stream yields an empty graph - in all three cases execution simply
continues, with no diagnostic and no non-zero exit. -/
theorem c7_counterexample :
    loadGraph [Tok.num 0, Tok.num 1, Tok.real (1/2), Tok.num 2, Tok.bad,
        Tok.real (1/2)] Grph.empty 0 []
      = (Grph.empty.add_edge 0 1, 1, [1/2],
         [Tok.num 2, Tok.bad, Tok.real (1/2)]) ∧
    loadGraph [Tok.num 0, Tok.num 1, Tok.real 7] Grph.empty 0 []
      = (Grph.empty.add_edge 0 1, 1, [7], []) ∧
    loadGraph [] Grph.empty 0 [] = (Grph.empty, 0, [], []) := by
  refine ⟨?_, ?_, rfl⟩ <;> with_unfolding_all rfl

/-- C7, amended: malformed graph input is not fatal - the loading loop
parses the longest well-formed prefix of the stream, keeps exactly
those edges (probabilities stored unchecked, out-of-range values
included), stops at the first token that fails extraction, and returns
normally so that the program continues with the truncated edge list. -/
theorem c7_truncation (l : List (Nat × Nat × ℚ)) (rest : List Tok)
    (g : Grph) (e : Nat) (p : List ℚ) (h : startsTriple rest = false) :
    loadGraph (tripleToks l ++ rest) g e p
      = (graphOfTriples g l, e + l.length, p ++ l.map (fun x => x.2.2),
         rest) := by
  induction l generalizing g e p with
  | nil =>
    simpa using loadGraph_stuck rest g e p h
  | cons t ts ih =>
    obtain ⟨s, tg, q⟩ := t
    show loadGraph (Tok.num s :: Tok.num tg :: Tok.real q :: _) g e p = _
    rw [loadGraph]
    simp only [List.append_eq]
    rw [ih]
    simp [graphOfTriples, Nat.add_assoc, Nat.add_comm 1]

/-- C7, witness for the amended theorem at a concrete stream: one
good edge line followed by a bad token. -/
theorem c7_witness :
    loadGraph (tripleToks [(0, 1, 1/2)] ++ [Tok.bad]) Grph.empty 0 []
      = (graphOfTriples Grph.empty [(0, 1, 1/2)], 0 + 1,
         [] ++ ([(0, 1, (1/2 : ℚ))].map (fun x => x.2.2)), [Tok.bad]) :=
  c7_truncation [(0, 1, 1/2)] [Tok.bad] Grph.empty 0 [] (by decide)

/-- Arc-list membership in terms of the adjacency store. -/
theorem mem_edgeList (g : Grph) (a b : Nat) :
    (a, b) ∈ g.edgeList ↔ ∃ e ∈ g.adj, e.1 = a ∧ b ∈ e.2 := by
  show (a, b) ∈ g.adj.foldr _ [] ↔ _
  induction g.adj with
  | nil => simp
  | cons x xs ih =>
    simp only [List.foldr_cons, List.mem_append, ih, List.mem_cons,
      List.mem_map]
    constructor
    · rintro (⟨t, ht, he⟩ | ⟨e, he, h1, h2⟩)
      · exact ⟨x, Or.inl rfl, (Prod.mk.injEq _ _ _ _ ▸ he).1,
          (Prod.mk.injEq _ _ _ _ ▸ he).2 ▸ ht⟩
      · exact ⟨e, Or.inr he, h1, h2⟩
    · rintro ⟨e, he | he, h1, h2⟩
      · exact Or.inl ⟨b, he ▸ h2, by rw [← h1, he]⟩
      · exact Or.inr ⟨e, he, h1, h2⟩

/-- Updating the adjacency entry of `u` by appending target `v` adds
exactly the arc `(u, v)` to the generated arc set. -/
theorem exists_setA_adj (l : List (Nat × List Nat)) (u v a b : Nat) :
    (∃ e ∈ setA l u (lookD l u [] ++ [v]), e.1 = a ∧ b ∈ e.2)
      ↔ (∃ e ∈ l, e.1 = a ∧ b ∈ e.2) ∨ (a = u ∧ b = v) := by
  induction l with
  | nil =>
    simp [setA, lookD, eq_comm]
  | cons x xs ih =>
    obtain ⟨k, L⟩ := x
    by_cases hk : k = u
    · subst hk
      have hset : setA ((k, L) :: xs) k (lookD ((k, L) :: xs) k [] ++ [v])
          = (k, L ++ [v]) :: xs := by
        simp [setA, lookD]
      rw [hset]
      constructor
      · rintro ⟨e, he, h1, h2⟩
        rcases List.mem_cons.1 he with rfl | he'
        · rcases List.mem_append.1 h2 with h | h
          · exact Or.inl ⟨(k, L), List.mem_cons_self _ _, h1, h⟩
          · exact Or.inr ⟨h1.symm, List.mem_singleton.1 h⟩
        · exact Or.inl ⟨e, List.mem_cons_of_mem _ he', h1, h2⟩
      · rintro (⟨e, he, h1, h2⟩ | ⟨h1, h2⟩)
        · rcases List.mem_cons.1 he with rfl | he'
          · exact ⟨(k, L ++ [v]), List.mem_cons_self _ _, h1,
              List.mem_append.2 (Or.inl h2)⟩
          · exact ⟨e, List.mem_cons_of_mem _ he', h1, h2⟩
        · exact ⟨(k, L ++ [v]), List.mem_cons_self _ _, h1.symm,
            List.mem_append.2 (Or.inr (by simp [h2]))⟩
    · have hset : setA ((k, L) :: xs) u (lookD ((k, L) :: xs) u [] ++ [v])
          = (k, L) :: setA xs u (lookD xs u [] ++ [v]) := by
        simp [setA, lookD, hk]
      rw [hset]
      constructor
      · rintro ⟨e, he, h1, h2⟩
        rcases List.mem_cons.1 he with rfl | he'
        · exact Or.inl ⟨(k, L), List.mem_cons_self _ _, h1, h2⟩
        · rcases (ih).1 ⟨e, he', h1, h2⟩ with ⟨e', he'', h⟩ | h
          · exact Or.inl ⟨e', List.mem_cons_of_mem _ he'', h⟩
          · exact Or.inr h
      · rintro (⟨e, he, h1, h2⟩ | h)
        · rcases List.mem_cons.1 he with rfl | he'
          · exact ⟨(k, L), List.mem_cons_self _ _, h1, h2⟩
          · rcases (ih).2 (Or.inl ⟨e, he', h1, h2⟩) with ⟨e', he'', h⟩
            exact ⟨e', List.mem_cons_of_mem _ he'', h⟩
        · rcases (ih).2 (Or.inr h) with ⟨e', he'', h'⟩
          exact ⟨e', List.mem_cons_of_mem _ he'', h'⟩

/-- Arc-set effect of `add_edge`. -/
theorem mem_edgeList_add_edge (g : Grph) (u v a b : Nat) :
    (a, b) ∈ (g.add_edge u v).edgeList
      ↔ (a, b) ∈ g.edgeList ∨ (a = u ∧ b = v) := by
  rw [mem_edgeList, mem_edgeList]
  exact exists_setA_adj g.adj u v a b

/-- `add_node` leaves the arc set unchanged. -/
theorem edgeList_add_node (g : Grph) (u : Nat) :
    (g.add_node u).edgeList = g.edgeList := rfl

/-- Arc-set characterisation of the DAG-building fold of `tarjan`: an
arc appears exactly when some `pred` entry crosses two distinct SCC
ids. -/
theorem mem_edgeList_dagBuild (ccM : List (Nat × Nat))
    (predL : List (Nat × Nat)) (dag0 : Grph) (a b : Nat) :
    ((a, b) ∈ (predL.foldl (dagBuildStep ccM) dag0).edgeList
      ↔ (a, b) ∈ dag0.edgeList ∨ ∃ vp ∈ predL,
          lookD ccM vp.2 0 = a ∧ lookD ccM vp.1 0 = b ∧
          lookD ccM vp.2 0 ≠ lookD ccM vp.1 0) := by
  induction predL generalizing dag0 with
  | nil => simp
  | cons vp rest ih =>
    rw [List.foldl_cons, ih]
    unfold dagBuildStep
    by_cases h : lookD ccM vp.2 0 ≠ lookD ccM vp.1 0
    · rw [if_pos h, mem_edgeList_add_edge, edgeList_add_node]
      constructor
      · rintro ((hm | ⟨h1, h2⟩) | ⟨e, he, h'⟩)
        · exact Or.inl hm
        · exact Or.inr ⟨vp, List.mem_cons_self vp rest, h1.symm, h2.symm, h⟩
        · exact Or.inr ⟨e, List.mem_cons_of_mem vp he, h'⟩
      · rintro (hm | ⟨e, he, h1, h2, h3⟩)
        · exact Or.inl (Or.inl hm)
        · rcases List.mem_cons.1 he with rfl | he'
          · exact Or.inl (Or.inr ⟨h1.symm, h2.symm⟩)
          · exact Or.inr ⟨e, he', h1, h2, h3⟩
    · rw [if_neg h, edgeList_add_node]
      constructor
      · rintro (hm | ⟨e, he, h'⟩)
        · exact Or.inl hm
        · exact Or.inr ⟨e, List.mem_cons_of_mem vp he, h'⟩
      · rintro (hm | ⟨e, he, h1, h2, h3⟩)
        · exact Or.inl hm
        · rcases List.mem_cons.1 he with rfl | he'
          · exact absurd h3 h
          · exact Or.inr ⟨e, he', h1, h2, h3⟩

/-- C4, counterexample: with every edge of `gTri` sampled live (an
all-`true` stream), node 0's SCC gets id 2 and node 2's SCC gets id 0,
the live edge `0 → 2` therefore crosses the two distinct SCCs 2 and 0,
yet the contracted graph has no arc `(2, 0)`: its arcs come from the
DFS predecessor tree only, not from all crossing live edges. -/
theorem c4_counterexample :
    (2 ∈ gTri.get_neighbours 0) ∧
    lookD (tarjan gTri [true, true, true] 30).ccR 0 0 = 2 ∧
    lookD (tarjan gTri [true, true, true] 30).ccR 2 0 = 0 ∧
    (2 : Nat) ≠ 0 ∧
    (2, 0) ∉ (tarjan gTri [true, true, true] 30).dag.edgeList := by
  refine ⟨by decide, ?_, ?_, by decide, ?_⟩ <;> with_unfolding_all decide

/-- C4, amended: the contracted graph `graphs[i]` built by `tarjan` is
not the condensation of the sampled live subgraph; its arcs are
exactly the pairs `(cc[pred[v]], cc[v])` of distinct SCC ids taken
from the DFS predecessor map, so live edges crossing two SCCs that are
not DFS tree edges produce no arc. -/
theorem c4_dag_edges_from_pred (g : Grph) (stream : List Bool)
    (fuel : Nat) (a b : Nat) :
    ((a, b) ∈ (tarjan g stream fuel).dag.edgeList
      ↔ ∃ vp ∈ (tarjan g stream fuel).predR,
          lookD (tarjan g stream fuel).ccR vp.2 0 = a ∧
          lookD (tarjan g stream fuel).ccR vp.1 0 = b ∧ a ≠ b) := by
  have hd : (tarjan g stream fuel).dag
      = (tarjan g stream fuel).predR.foldl
          (dagBuildStep (tarjan g stream fuel).ccR) Grph.empty := rfl
  rw [hd, mem_edgeList_dagBuild]
  constructor
  · rintro (hm | ⟨e, he, h1, h2, h3⟩)
    · simp [Grph.empty, Grph.edgeList] at hm
    · exact ⟨e, he, h1, h2, fun hab => h3 (h1.trans (hab.trans h2.symm))⟩
  · rintro ⟨e, he, h1, h2, h3⟩
    exact Or.inr ⟨e, he, h1, h2, fun hll => h3 (h1.symm.trans (hll.trans h2))⟩

/-- The candidate fold of `select` equals the `>=`-running-maximum over
the scan list of `(candidate, averaged gain)` pairs. -/
theorem foldl_selectStep_eq (activated : List Nat) (R : Nat) (es : Bool)
    (fuel : Nat) (nodes : List Nat) :
    ∀ (t : Nat) (m : ℚ) (samples : List (SampleData × SampleCache)),
    nodes.foldl (selectStep activated R es fuel) (t, m, samples)
      = ((argmaxGE (candScan activated R es fuel nodes samples).1 (t, m)).1,
         (argmaxGE (candScan activated R es fuel nodes samples).1 (t, m)).2,
         (candScan activated R es fuel nodes samples).2) := by
  induction nodes with
  | nil => intro t m samples; rfl
  | cons v rest ih =>
    intro t m samples
    rw [List.foldl_cons]
    by_cases hv : v ∈ activated
    · have hstep : selectStep activated R es fuel (t, m, samples) v
          = (t, m, samples) := by
        unfold selectStep; rw [if_pos hv]
      have hscan : candScan activated R es fuel (v :: rest) samples
          = candScan activated R es fuel rest samples := by
        rw [candScan, if_pos hv]
      rw [hstep, hscan, ih]
    · have hstep : selectStep activated R es fuel (t, m, samples) v
          = (if (totalGain samples v es fuel).1 / (R : ℚ) ≥ m
             then (v, (totalGain samples v es fuel).1 / (R : ℚ),
                   (totalGain samples v es fuel).2)
             else (t, m, (totalGain samples v es fuel).2)) := by
        unfold selectStep; rw [if_neg hv]
      have hscan : candScan activated R es fuel (v :: rest) samples
          = ((v, (totalGain samples v es fuel).1 / (R : ℚ)) ::
              (candScan activated R es fuel rest
                (totalGain samples v es fuel).2).1,
             (candScan activated R es fuel rest
               (totalGain samples v es fuel).2).2) := by
        rw [candScan, if_neg hv]
      rw [hstep, hscan]
      by_cases hge : (totalGain samples v es fuel).1 / (R : ℚ) ≥ m
      · rw [if_pos hge, ih]
        have ha : argmaxGE ((v, (totalGain samples v es fuel).1 / (R : ℚ))
              :: (candScan activated R es fuel rest
                  (totalGain samples v es fuel).2).1) (t, m)
            = argmaxGE ((candScan activated R es fuel rest
                (totalGain samples v es fuel).2).1)
                (v, (totalGain samples v es fuel).1 / (R : ℚ)) := by
          rw [argmaxGE, if_pos hge]
        rw [ha]
      · rw [if_neg hge, ih]
        have ha : argmaxGE ((v, (totalGain samples v es fuel).1 / (R : ℚ))
              :: (candScan activated R es fuel rest
                  (totalGain samples v es fuel).2).1) (t, m)
            = argmaxGE ((candScan activated R es fuel rest
                (totalGain samples v es fuel).2).1) (t, m) := by
          rw [argmaxGE, if_neg hge]
        rw [ha]

/-- Splitting the running maximum over an append. -/
theorem argmaxGE_append : ∀ (l₁ l₂ : List (Nat × ℚ)) (acc : Nat × ℚ),
    argmaxGE (l₁ ++ l₂) acc = argmaxGE l₂ (argmaxGE l₁ acc)
  | [], _, _ => rfl
  | (v, x) :: rest, l₂, acc => by
    show argmaxGE (rest ++ l₂) (if x ≥ acc.2 then (v, x) else acc)
        = argmaxGE l₂ (argmaxGE rest (if x ≥ acc.2 then (v, x) else acc))
    exact argmaxGE_append rest l₂ _

/-- The running maximum never exceeds a bound satisfied by the
accumulator and all list values. -/
theorem argmaxGE_le : ∀ (l : List (Nat × ℚ)) (acc : Nat × ℚ) (x : ℚ),
    (∀ p ∈ l, p.2 ≤ x) → acc.2 ≤ x → (argmaxGE l acc).2 ≤ x
  | [], _, _, _, hacc => hacc
  | (w, y) :: rest, acc, x, hl, hacc => by
    show (argmaxGE rest (if y ≥ acc.2 then (w, y) else acc)).2 ≤ x
    by_cases h : y ≥ acc.2
    · rw [if_pos h]
      exact argmaxGE_le rest (w, y) x
        (fun q hq => hl q (List.mem_cons_of_mem _ hq))
        (hl (w, y) (List.mem_cons_self _ _))
    · rw [if_neg h]
      exact argmaxGE_le rest acc x
        (fun q hq => hl q (List.mem_cons_of_mem _ hq)) hacc

/-- Strictly smaller values never displace the accumulator. -/
theorem argmaxGE_keep_lt : ∀ (l : List (Nat × ℚ)) (acc : Nat × ℚ),
    (∀ p ∈ l, p.2 < acc.2) → argmaxGE l acc = acc
  | [], _, _ => rfl
  | (w, y) :: rest, acc, hl => by
    show argmaxGE rest (if y ≥ acc.2 then (w, y) else acc) = acc
    rw [if_neg (not_le.2 (hl (w, y) (List.mem_cons_self _ _)))]
    exact argmaxGE_keep_lt rest acc
      (fun q hq => hl q (List.mem_cons_of_mem _ hq))

/-- A maximal accumulator value is preserved over values below it. -/
theorem argmaxGE_top_eq : ∀ (l : List (Nat × ℚ)) (acc : Nat × ℚ) (x : ℚ),
    acc.2 = x → (∀ p ∈ l, p.2 ≤ x) → (argmaxGE l acc).2 = x
  | [], _, _, hacc, _ => hacc
  | (w, y) :: rest, acc, x, hacc, hl => by
    show (argmaxGE rest (if y ≥ acc.2 then (w, y) else acc)).2 = x
    by_cases h : y ≥ acc.2
    · rw [if_pos h]
      exact argmaxGE_top_eq rest (w, y) x
        (le_antisymm (hl (w, y) (List.mem_cons_self _ _))
          (by rw [← hacc]; exact h))
        (fun q hq => hl q (List.mem_cons_of_mem _ hq))
    · rw [if_neg h]
      exact argmaxGE_top_eq rest acc x hacc
        (fun q hq => hl q (List.mem_cons_of_mem _ hq))

/-- C5, counterexample: on the graph `0 → 1`, `1 → 0` with both edges
sampled dead (so every node is its own SCC and both candidates have
averaged gain 1, the maximum), `select` inserts node 1 - not the
smallest node id 0. -/
theorem c5_counterexample :
    (candScan [] 1 true 30 gCyc.get_nodes
        (selectSetup gCyc [] 1 [false, false] 30)).1 = [(0, 1), (1, 1)] ∧
    select gCyc [] 1 1 [false, false] 30 = some [1] ∧
    (0 : Nat) < 1 := by
  refine ⟨?_, ?_, by decide⟩ <;> with_unfolding_all rfl

/-- C5, amended: ties on the maximal averaged gain are broken in
favour of the candidate scanned later in `graph.get_nodes()` iteration
order, not the smallest node id: the acceptance test is
`tot_val >= val_max`, so when the scan list splits as
`l₁ ++ (v₁, x) :: l₂ ++ (v₂, x) :: l₃` with `x` maximal (weakly above
`l₁, l₂`, strictly above `l₃`) the scan returns `v₂`, the later tied
candidate. -/
theorem c5_tie_later_wins (nodes activated : List Nat) (R : Nat)
    (es : Bool) (fuel : Nat)
    (samples : List (SampleData × SampleCache))
    (l₁ l₂ l₃ : List (Nat × ℚ)) (v₁ v₂ : Nat) (x : ℚ)
    (hscan : (candScan activated R es fuel nodes samples).1
        = l₁ ++ (v₁, x) :: l₂ ++ (v₂, x) :: l₃)
    (h1 : ∀ p ∈ l₁, p.2 ≤ x) (h2 : ∀ p ∈ l₂, p.2 ≤ x)
    (h3 : ∀ p ∈ l₃, p.2 < x) (hx : 0 ≤ x) :
    (selectTop nodes activated R es fuel samples).1 = v₂ := by
  unfold selectTop
  rw [foldl_selectStep_eq, hscan]
  have ha1 : (argmaxGE l₁ ((0 : Nat), (0 : ℚ))).2 ≤ x :=
    argmaxGE_le l₁ (0, 0) x h1 hx
  rw [argmaxGE_append, argmaxGE_append]
  have hc1 : argmaxGE ((v₁, x) :: l₂) (argmaxGE l₁ ((0 : Nat), (0 : ℚ)))
      = argmaxGE l₂ (v₁, x) := by
    show argmaxGE l₂
        (if x ≥ (argmaxGE l₁ ((0 : Nat), (0 : ℚ))).2 then (v₁, x)
         else argmaxGE l₁ ((0 : Nat), (0 : ℚ))) = argmaxGE l₂ (v₁, x)
    rw [if_pos ha1]
  rw [hc1]
  have ha2 : (argmaxGE l₂ (v₁, x)).2 = x := argmaxGE_top_eq l₂ (v₁, x) x rfl h2
  have hc2 : argmaxGE ((v₂, x) :: l₃) (argmaxGE l₂ (v₁, x))
      = argmaxGE l₃ (v₂, x) := by
    show argmaxGE l₃
        (if x ≥ (argmaxGE l₂ (v₁, x)).2 then (v₂, x)
         else argmaxGE l₂ (v₁, x)) = argmaxGE l₃ (v₂, x)
    rw [if_pos (le_of_eq ha2)]
  rw [hc2, argmaxGE_keep_lt l₃ (v₂, x) h3]

/-- C5, witness for the amended theorem: the concrete tie of the
counterexample run, where candidates 0 and 1 both reach the maximal
averaged gain 1 and the scan returns the later candidate 1. -/
theorem c5_witness :
    (selectTop gCyc.get_nodes [] 1 true 30
        (selectSetup gCyc [] 1 [false, false] 30)).1 = 1 :=
  c5_tie_later_wins gCyc.get_nodes [] 1 true 30
    (selectSetup gCyc [] 1 [false, false] 30) [] [] [] 0 1 1
    (by with_unfolding_all rfl)
    (by intro p hp; cases hp) (by intro p hp; cases hp)
    (by intro p hp; cases hp) (by norm_num)

/-- Members of a set after `insert`. -/
theorem mem_insertS (x s : Nat) (l : List Nat) (h : s ∈ insertS x l) :
    s = x ∨ s ∈ l := by
  unfold insertS at h
  by_cases hx : x ∈ l
  · rw [if_pos hx] at h
    exact Or.inr h
  · rw [if_neg hx] at h
    rcases List.mem_append.1 h with h' | h'
    · exact Or.inr h'
    · exact Or.inl (List.mem_singleton.1 h')

/-- `insert` grows a set by at most one element. -/
theorem insertS_length_le (x : Nat) (l : List Nat) :
    (insertS x l).length ≤ l.length + 1 := by
  unfold insertS
  by_cases hx : x ∈ l
  · rw [if_pos hx]
    exact Nat.le_succ _
  · rw [if_neg hx]
    simp

/-- A defaulted lookup in a map of non-negative values is
non-negative. -/
theorem lookD_nonneg : ∀ (l : List (Nat × ℚ)) (k : Nat),
    (∀ p ∈ l, 0 ≤ p.2) → 0 ≤ lookD l k 0
  | [], _, _ => le_refl 0
  | (a, w) :: rest, k, h => by
    show 0 ≤ if a = k then w else lookD rest k 0
    by_cases hk : a = k
    · rw [if_pos hk]
      exact h (a, w) (List.mem_cons_self _ _)
    · rw [if_neg hk]
      exact lookD_nonneg rest k (fun q hq => h q (List.mem_cons_of_mem _ hq))

/-- Writing a non-negative value preserves non-negativity of a map. -/
theorem setA_nonneg : ∀ (l : List (Nat × ℚ)) (k : Nat) (v : ℚ),
    (∀ p ∈ l, 0 ≤ p.2) → 0 ≤ v → ∀ p ∈ setA l k v, 0 ≤ p.2
  | [], _, v, _, hv, p, hp => by
    rcases List.mem_singleton.1 hp with rfl
    exact hv
  | (a, w) :: rest, k, v, h, hv, p, hp => by
    by_cases hk : a = k
    · have hs : setA ((a, w) :: rest) k v = (a, v) :: rest := by
        simp [setA, hk]
      rw [hs] at hp
      rcases List.mem_cons.1 hp with rfl | hp'
      · exact hv
      · exact h p (List.mem_cons_of_mem _ hp')
    · have hs : setA ((a, w) :: rest) k v = (a, w) :: setA rest k v := by
        simp [setA, hk]
      rw [hs] at hp
      rcases List.mem_cons.1 hp with rfl | hp'
      · exact h (a, w) (List.mem_cons_self _ _)
      · exact setA_nonneg rest k v
          (fun q hq => h q (List.mem_cons_of_mem _ hq)) hv p hp'

/-- The accumulation BFS of `gain` only ever adds non-negative SCC
sizes, so it preserves non-negativity of the delta cache. -/
theorem gainLoop_nonneg (sd : SampleData) (v : Nat) (es : Bool) :
    ∀ (fuel : Nat) (q x : List Nat) (deltaS : List (Nat × ℚ)),
    (∀ p ∈ deltaS, 0 ≤ p.2) →
    ∀ p ∈ gainLoop sd v es fuel q x deltaS, 0 ≤ p.2
  | 0, _, _, _, h => h
  | _ + 1, [], _, _, h => h
  | fuel + 1, u :: qrest, x, deltaS, h => by
    rw [gainLoop]
    by_cases hc : v ∈ sd.ancS ∧ u ∈ sd.desS ∧ es = true
    · rw [if_pos hc]
      exact gainLoop_nonneg sd v es fuel qrest x deltaS h
    · rw [if_neg hc]
      exact gainLoop_nonneg sd v es fuel _ _ _
        (setA_nonneg _ _ _ h
          (add_nonneg (lookD_nonneg _ _ h) (Nat.cast_nonneg _)))

/-- `gain` returns a non-negative value and preserves non-negativity
of every delta cache entry. -/
theorem gain_nonneg (sd : SampleData) :
    ∀ (fuel : Nat) (cache : SampleCache) (node : Nat) (es : Bool),
    (∀ p ∈ cache.deltaS, 0 ≤ p.2) →
    0 ≤ (gain sd fuel cache node es).1 ∧
    ∀ p ∈ (gain sd fuel cache node es).2.deltaS, 0 ≤ p.2
  | 0, cache, _, _, h => ⟨le_refl 0, h⟩
  | fuel + 1, cache, node, es, h => by
    rw [gain]
    by_cases h1 : sd.dag.has_node (lookD sd.ccS node 0) = false
    · rw [if_pos h1]
      exact ⟨le_refl 0, h⟩
    · rw [if_neg h1]
      by_cases h2 : lookD cache.latestS (lookD sd.ccS node 0) false
      · rw [if_pos h2]
        exact ⟨lookD_nonneg _ _ h, h⟩
      · rw [if_neg h2]
        by_cases h3 : lookD sd.ccS node 0 ∈ sd.ancS ∧ es = true
        · simp only [if_pos h3]
          have hrec := gain_nonneg sd fuel
            { cache with
                latestS := setA cache.latestS (lookD sd.ccS node 0) true }
            ((lookD sd.ccListS sd.hS []).headD 0) es h
          have hd : ∀ p ∈ setA (gain sd fuel
              { cache with
                  latestS := setA cache.latestS (lookD sd.ccS node 0) true }
              ((lookD sd.ccListS sd.hS []).headD 0) es).2.deltaS
              (lookD sd.ccS node 0)
              (gain sd fuel
                { cache with
                    latestS := setA cache.latestS (lookD sd.ccS node 0) true }
                ((lookD sd.ccListS sd.hS []).headD 0) es).1, 0 ≤ p.2 :=
            setA_nonneg _ _ _ hrec.2 hrec.1
          refine ⟨lookD_nonneg _ _ ?_, ?_⟩
          · exact gainLoop_nonneg sd _ es (fuel + 1) _ _ _ hd
          · exact gainLoop_nonneg sd _ es (fuel + 1) _ _ _ hd
        · simp only [if_neg h3]
          have hd : ∀ p ∈ setA cache.deltaS (lookD sd.ccS node 0) 0,
              0 ≤ p.2 := setA_nonneg _ _ _ h (le_refl 0)
          refine ⟨lookD_nonneg _ _ ?_, ?_⟩
          · exact gainLoop_nonneg sd _ es (fuel + 1) _ _ _ hd
          · exact gainLoop_nonneg sd _ es (fuel + 1) _ _ _ hd

/-- `tot_val` is a sum of non-negative gains; summation preserves the
cache invariant of every sample. -/
theorem totalGain_nonneg :
    ∀ (ss : List (SampleData × SampleCache)) (v : Nat) (es : Bool)
      (fuel : Nat),
    (∀ sc ∈ ss, ∀ p ∈ sc.2.deltaS, 0 ≤ p.2) →
    0 ≤ (totalGain ss v es fuel).1 ∧
    ∀ sc ∈ (totalGain ss v es fuel).2, ∀ p ∈ sc.2.deltaS, 0 ≤ p.2
  | [], _, _, _, _ => ⟨le_refl 0, by intro sc hsc; cases hsc⟩
  | (sd, c) :: rest, v, es, fuel, h => by
    have h1 := gain_nonneg sd fuel c v es
      (fun p hp => h (sd, c) (List.mem_cons_self _ _) p hp)
    have h2 := totalGain_nonneg rest v es fuel
      (fun sc hsc => h sc (List.mem_cons_of_mem _ hsc))
    refine ⟨add_nonneg h1.1 h2.1, ?_⟩
    intro sc hsc
    rcases List.mem_cons.1 hsc with rfl | hsc'
    · exact h1.2
    · exact h2.2 sc hsc'

/-- Initialising a cache with zeros yields non-negative entries. -/
theorem foldl_setA_zero_nonneg (l : List Nat) :
    ∀ (m : List (Nat × ℚ)), (∀ p ∈ m, 0 ≤ p.2) →
    ∀ p ∈ l.foldl (fun m n => setA m n (0 : ℚ)) m, 0 ≤ p.2 := by
  induction l with
  | nil => intro m hm; exact hm
  | cons a rest ih =>
    intro m hm
    exact ih _ (setA_nonneg m a 0 hm (le_refl 0))

/-- Every delta cache produced by the set-up phase is non-negative. -/
theorem selectSetup_nonneg (g : Grph) (activated : List Nat) :
    ∀ (R : Nat) (stream : List Bool) (fuel : Nat),
    ∀ sc ∈ selectSetup g activated R stream fuel,
    ∀ p ∈ sc.2.deltaS, 0 ≤ p.2
  | 0, _, _ => by intro sc hsc; cases hsc
  | R + 1, stream, fuel => by
    intro sc hsc
    rcases List.mem_cons.1 hsc with rfl | h'
    · exact foldl_setA_zero_nonneg _ [] (by intro p hp; cases hp)
    · exact selectSetup_nonneg g activated R _ fuel sc h'

/-- `update_dag` writes only validity flags; the delta cache is
untouched. -/
theorem update_dag_deltaS (sd : SampleData) (c : SampleCache) (node : Nat)
    (fuel : Nat) : (update_dag sd c node fuel).2.deltaS = c.deltaS := rfl

/-- Invariants of the candidate fold of `select`: the running maximum
stays non-negative, the caches stay non-negative, a non-activated
running candidate stays non-activated, and - starting from `val_max =
0` - the presence of any non-activated node forces the final candidate
out of the activated set (its non-negative average gain passes the
`>=` test against 0). -/
theorem foldl_selectStep_inv (activated : List Nat) (R : Nat) (es : Bool)
    (fuel : Nat) :
    ∀ (nodes : List Nat) (t : Nat) (m : ℚ)
      (samples : List (SampleData × SampleCache)),
    0 ≤ m →
    (∀ sc ∈ samples, ∀ p ∈ sc.2.deltaS, 0 ≤ p.2) →
    (0 ≤ (nodes.foldl (selectStep activated R es fuel) (t, m, samples)).2.1)
    ∧ (∀ sc ∈ (nodes.foldl (selectStep activated R es fuel)
          (t, m, samples)).2.2, ∀ p ∈ sc.2.deltaS, 0 ≤ p.2)
    ∧ (t ∉ activated →
        (nodes.foldl (selectStep activated R es fuel)
          (t, m, samples)).1 ∉ activated)
    ∧ (m ≤ 0 → (∃ v ∈ nodes, v ∉ activated) →
        (nodes.foldl (selectStep activated R es fuel)
          (t, m, samples)).1 ∉ activated)
  | [], t, m, samples, hm, hsam =>
    ⟨hm, hsam, fun ht => ht, fun _ hex => absurd hex (by simp)⟩
  | v :: rest, t, m, samples, hm, hsam => by
    rw [List.foldl_cons]
    by_cases hv : v ∈ activated
    · have hstep : selectStep activated R es fuel (t, m, samples) v
          = (t, m, samples) := by
        unfold selectStep
        rw [if_pos hv]
      rw [hstep]
      have ih := foldl_selectStep_inv activated R es fuel rest t m samples
        hm hsam
      refine ⟨ih.1, ih.2.1, ih.2.2.1, ?_⟩
      intro hm0 hex
      rcases hex with ⟨w, hw, hwa⟩
      rcases List.mem_cons.1 hw with rfl | hw'
      · exact absurd hv hwa
      · exact ih.2.2.2 hm0 ⟨w, hw', hwa⟩
    · have htg := totalGain_nonneg samples v es fuel hsam
      have htot : 0 ≤ (totalGain samples v es fuel).1 / (R : ℚ) :=
        div_nonneg htg.1 (Nat.cast_nonneg R)
      by_cases hge : (totalGain samples v es fuel).1 / (R : ℚ) ≥ m
      · have hstep : selectStep activated R es fuel (t, m, samples) v
            = (v, (totalGain samples v es fuel).1 / (R : ℚ),
               (totalGain samples v es fuel).2) := by
          unfold selectStep
          rw [if_neg hv, if_pos hge]
        rw [hstep]
        have ih := foldl_selectStep_inv activated R es fuel rest v
          ((totalGain samples v es fuel).1 / (R : ℚ))
          (totalGain samples v es fuel).2 htot htg.2
        exact ⟨ih.1, ih.2.1, fun _ => ih.2.2.1 hv, fun _ _ => ih.2.2.1 hv⟩
      · have hstep : selectStep activated R es fuel (t, m, samples) v
            = (t, m, (totalGain samples v es fuel).2) := by
          unfold selectStep
          rw [if_neg hv, if_neg hge]
        rw [hstep]
        have ih := foldl_selectStep_inv activated R es fuel rest t m
          (totalGain samples v es fuel).2 hm htg.2
        refine ⟨ih.1, ih.2.1, ih.2.2.1, ?_⟩
        intro hm0 _
        exact absurd (hm0.trans htot) hge

/-- If the seed-selection loop exits within its fuel, the returned set
is no larger than `k` and - whenever any non-activated node exists in
the graph - disjoint from the activated set. -/
theorem selectLoop_some (g : Grph) (activated : List Nat)
    (k R fuelG : Nat) :
    ∀ (fuel : Nat) (set : List Nat)
      (samples : List (SampleData × SampleCache)) (S : List Nat),
    set.length ≤ k →
    ((∃ v ∈ g.get_nodes, v ∉ activated) → ∀ s ∈ set, s ∉ activated) →
    (∀ sc ∈ samples, ∀ p ∈ sc.2.deltaS, 0 ≤ p.2) →
    selectLoop g activated k R fuelG fuel set samples = some S →
    S.length ≤ k ∧
    ((∃ v ∈ g.get_nodes, v ∉ activated) → ∀ s ∈ S, s ∉ activated)
  | 0, _, _, S, _, _, _, h => Option.noConfusion h
  | fuel + 1, set, samples, S, hlen, hset, hsam, h => by
    rw [selectLoop] at h
    by_cases hk : set.length < k
    · rw [if_pos hk] at h
      have hinv := foldl_selectStep_inv activated R set.isEmpty fuelG
        g.get_nodes 0 0 samples (le_refl 0) hsam
      refine selectLoop_some g activated k R fuelG fuel _ _ S ?_ ?_ ?_ h
      · exact le_trans (insertS_length_le _ _) hk
      · intro hex s hs
        rcases mem_insertS _ s set hs with rfl | hs'
        · exact hinv.2.2.2 (le_refl 0) hex
        · exact hset hex s hs'
      · intro sc hsc
        rcases List.mem_map.1 hsc with ⟨sc₀, h₀, rfl⟩
        rw [update_dag_deltaS]
        exact hinv.2.1 sc₀ h₀
    · rw [if_neg hk] at h
      obtain rfl : set = S := Option.some.inj h
      exact ⟨hlen, hset⟩

/-- C1, counterexample: on the graph `0 → 1` with every node activated
(`A = {0, 1}`) and `k = 1`, the candidate loop never assigns `t`, the
default `t = 0` is inserted, and `select` returns `{0}` - a seed set
that intersects the activated set. -/
theorem c1_counterexample :
    select g01 [0, 1] 1 1 [true] 30 = some [0] ∧ (0 : Nat) ∈ [0, 1] := by
  refine ⟨?_, by decide⟩
  with_unfolding_all rfl

/-- C1, amended: whenever `select` returns a seed set `S` it satisfies
`|S| ≤ k`, and `S` is disjoint from the activated set provided at
least one node of the graph is non-activated; when every node is
activated, the loop's default candidate `t = 0` is inserted even if
node 0 is activated. -/
theorem c1_select_size_and_disjoint (g : Grph) (activated : List Nat)
    (k R : Nat) (stream : List Bool) (fuel : Nat) (S : List Nat)
    (h : select g activated k R stream fuel = some S) :
    S.length ≤ k ∧
    ((∃ v ∈ g.get_nodes, v ∉ activated) → ∀ s ∈ S, s ∉ activated) := by
  unfold select at h
  exact selectLoop_some g activated k R fuel fuel [] _ S (Nat.zero_le k)
    (fun _ s hs => absurd hs (List.not_mem_nil s))
    (selectSetup_nonneg g activated R stream fuel) h

/-- C1, witness for the amended theorem at the concrete run of `select`
on the graph `0 → 1` with no activated nodes and `k = 1`. -/
theorem c1_witness :
    ([0] : List Nat).length ≤ 1 ∧
    ((∃ v ∈ g01.get_nodes, v ∉ ([] : List Nat)) →
      ∀ s ∈ ([0] : List Nat), s ∉ ([] : List Nat)) :=
  c1_select_size_and_disjoint g01 [] 1 1 [true] 30 [0]
    (by with_unfolding_all rfl)

/-- On the graph `0 → 1` with `activated = {1}` and `R = 1`, every
candidate scan returns node 0: node 0 is the only non-activated node
and its non-negative average gain passes the `>=` test against the
initial `val_max = 0` (and `t` also starts at 0), while node 1 is
skipped as activated. -/
theorem c2_top_zero (es : Bool) (fuelG : Nat)
    (samples : List (SampleData × SampleCache))
    (hsam : ∀ sc ∈ samples, ∀ p ∈ sc.2.deltaS, 0 ≤ p.2) :
    (selectTop g01.get_nodes [1] 1 es fuelG samples).1 = 0 := by
  have htg := totalGain_nonneg samples 0 es fuelG hsam
  have htot : (totalGain samples 0 es fuelG).1 / ((1 : Nat) : ℚ) ≥ 0 :=
    div_nonneg htg.1 (by norm_num)
  unfold selectTop
  have hn : g01.get_nodes = [0, 1] := rfl
  rw [hn, List.foldl_cons, List.foldl_cons, List.foldl_nil]
  have h0 : selectStep [1] 1 es fuelG ((0 : Nat), (0 : ℚ), samples) 0
      = (0, (totalGain samples 0 es fuelG).1 / ((1 : Nat) : ℚ),
         (totalGain samples 0 es fuelG).2) := by
    unfold selectStep
    rw [if_neg (by decide : ¬ (0 : Nat) ∈ [1]), if_pos htot]
  rw [h0]
  have h1 : selectStep [1] 1 es fuelG
      ((0 : Nat), (totalGain samples 0 es fuelG).1 / ((1 : Nat) : ℚ),
       (totalGain samples 0 es fuelG).2) 1
      = ((0 : Nat), (totalGain samples 0 es fuelG).1 / ((1 : Nat) : ℚ),
         (totalGain samples 0 es fuelG).2) := by
    unfold selectStep
    rw [if_pos (by decide : (1 : Nat) ∈ [1])]
  rw [h1]

/-- The seed-selection loop of the C2 failing input makes no progress:
starting from `set = {}` or `set = {0}` it re-inserts node 0 forever
and never returns, whatever the fuel. -/
theorem c2_loop_stuck (fuelG : Nat) :
    ∀ (fuel : Nat) (set : List Nat)
      (samples : List (SampleData × SampleCache)),
    (set = [] ∨ set = [0]) →
    (∀ sc ∈ samples, ∀ p ∈ sc.2.deltaS, 0 ≤ p.2) →
    selectLoop g01 [1] 2 1 fuelG fuel set samples = none
  | 0, _, _, _, _ => rfl
  | fuel + 1, set, samples, hset, hsam => by
    rw [selectLoop]
    have hlt : set.length < 2 := by
      rcases hset with rfl | rfl <;> decide
    rw [if_pos hlt]
    have ht := c2_top_zero set.isEmpty fuelG samples hsam
    have hinv := foldl_selectStep_inv [1] 1 set.isEmpty fuelG g01.get_nodes
      0 0 samples (le_refl 0) hsam
    refine c2_loop_stuck fuelG fuel _ _ ?_ ?_
    · rw [ht]
      rcases hset with rfl | rfl
      · exact Or.inr rfl
      · exact Or.inr rfl
    · intro sc hsc
      rcases List.mem_map.1 hsc with ⟨sc₀, h₀, rfl⟩
      rw [update_dag_deltaS]
      exact hinv.2.1 sc₀ h₀

/-- C2: on the graph `0 → 1` with `activated = {1}`, `k = 2` and
`R = 1`, fewer than `k` non-activated nodes exist and
`OhsakaEvaluator::select` does not terminate: once node 0 is in the
seed set, every further iteration re-selects node 0, the
`unordered_set` insert leaves the set at `{0}`, and the
`while (set.size() < k)` loop never exits - modelled as the fuelled
loop returning `none` at every fuel value. -/
theorem c2_nontermination (fuel : Nat) :
    select g01 [1] 2 1 [false] fuel = none := by
  unfold select
  exact c2_loop_stuck fuel fuel [] _ (Or.inl rfl)
    (selectSetup_nonneg g01 [1] 1 [false] fuel)

/-- Insertion preserves earlier members. -/
theorem mem_insertS_of_mem (x y : Nat) (l : List Nat) (h : y ∈ l) :
    y ∈ insertS x l := by
  unfold insertS
  by_cases hx : x ∈ l
  · rw [if_pos hx]
    exact h
  · rw [if_neg hx]
    exact List.mem_append.2 (Or.inl h)

/-- Invariant of the neighbour loop of `bfs` in collecting mode
(`to = false`), processing the neighbours of a node `cur` reachable
from the start `s`: queue members stay reachable, `s` stays visited,
collected nodes are distinct from `s` and reachable in at least one
step, and the stop flag stays down. -/
theorem bfsStep_fold_inv (g : Grph) (s cur : Nat)
    (hcur : Relation.ReflTransGen (EdgeStep g) s cur) :
    ∀ (neighs : List Nat) (acc : List Nat × List Nat × List Nat × Bool),
    (∀ t ∈ neighs, t ∈ g.get_neighbours cur) →
    (∀ y ∈ acc.1, Relation.ReflTransGen (EdgeStep g) s y) →
    s ∈ acc.2.1 →
    (∀ y ∈ acc.2.2.1, y ≠ s ∧ Relation.TransGen (EdgeStep g) s y) →
    acc.2.2.2 = false →
    (∀ y ∈ (neighs.foldl (bfsStep g false 0 s) acc).1,
        Relation.ReflTransGen (EdgeStep g) s y) ∧
    s ∈ (neighs.foldl (bfsStep g false 0 s) acc).2.1 ∧
    (∀ y ∈ (neighs.foldl (bfsStep g false 0 s) acc).2.2.1,
        y ≠ s ∧ Relation.TransGen (EdgeStep g) s y) ∧
    (neighs.foldl (bfsStep g false 0 s) acc).2.2.2 = false
  | [], _, _, hq, hv, hcol, hflag => ⟨hq, hv, hcol, hflag⟩
  | tgt :: rest, acc, hn, hq, hv, hcol, hflag => by
    obtain ⟨q, visited, col, flag⟩ := acc
    have hflag' : flag = false := hflag
    subst hflag'
    rw [List.foldl_cons]
    by_cases hm : tgt ∈ visited
    · have hstep : bfsStep g false 0 s (q, visited, col, false) tgt
          = (q, visited, col, false) := by
        unfold bfsStep
        simp only []
        rw [if_pos hm]
      rw [hstep]
      exact bfsStep_fold_inv g s cur hcur rest _
        (fun t ht => hn t (List.mem_cons_of_mem _ ht)) hq hv hcol rfl
    · have hstep : bfsStep g false 0 s (q, visited, col, false) tgt
          = (q ++ [tgt], insertS tgt visited, insertS tgt col, false) := by
        unfold bfsStep
        simp only []
        rw [if_neg hm, if_pos trivial]
      rw [hstep]
      refine bfsStep_fold_inv g s cur hcur rest _
        (fun t ht => hn t (List.mem_cons_of_mem _ ht)) ?_ ?_ ?_ rfl
      · intro y hy
        rcases List.mem_append.1 hy with hy' | hy'
        · exact hq y hy'
        · rcases List.mem_singleton.1 hy' with rfl
          exact Relation.ReflTransGen.tail hcur
            (hn _ (List.mem_cons_self _ _))
      · exact mem_insertS_of_mem _ _ _ hv
      · intro y hy
        rcases mem_insertS _ y _ hy with rfl | hy'
        · refine ⟨fun hys => hm ?_,
            Relation.TransGen.tail' hcur (hn _ (List.mem_cons_self _ _))⟩
          rw [hys]
          exact hv
        · exact hcol y hy'

/-- Soundness of the collecting BFS (`to = false`): everything it ever
adds to the collector is distinct from the start node and reachable
from it through at least one edge. -/
theorem bfsGo_sound (g : Grph) (s : Nat) :
    ∀ (fuel : Nat) (q visited col : List Nat),
    (∀ y ∈ q, Relation.ReflTransGen (EdgeStep g) s y) →
    s ∈ visited →
    (∀ y ∈ col, y ≠ s ∧ Relation.TransGen (EdgeStep g) s y) →
    ∀ y ∈ bfsGo g false 0 s fuel q visited col,
      y ≠ s ∧ Relation.TransGen (EdgeStep g) s y
  | 0, _, _, _, _, _, hcol => hcol
  | _ + 1, [], _, _, _, _, hcol => hcol
  | fuel + 1, cur :: qrest, visited, col, hq, hv, hcol => by
    rw [bfsGo]
    simp only []
    have hcur : Relation.ReflTransGen (EdgeStep g) s cur :=
      hq cur (List.mem_cons_self _ _)
    have hneigh : ∀ t ∈ (if g.has_neighbours cur
        then g.get_neighbours cur else []), t ∈ g.get_neighbours cur := by
      by_cases hh : g.has_neighbours cur
      · rw [if_pos hh]
        exact fun t ht => ht
      · rw [if_neg hh]
        intro t ht
        cases ht
    have hinv := bfsStep_fold_inv g s cur hcur
      (if g.has_neighbours cur then g.get_neighbours cur else [])
      (qrest, insertS cur visited, col, false) hneigh
      (fun y hy => hq y (List.mem_cons_of_mem _ hy))
      (mem_insertS_of_mem _ _ _ hv) hcol rfl
    rcases hfold : (if g.has_neighbours cur then g.get_neighbours cur
        else []).foldl (bfsStep g false 0 s)
        (qrest, insertS cur visited, col, false) with ⟨q', v', c', stopped⟩
    rw [hfold] at hinv
    obtain ⟨hq', hv', hc', hstop⟩ := hinv
    subst hstop
    simp only [Bool.false_eq_true, if_false]
    exact fun y hy => bfsGo_sound g s fuel q' v' c' hq' hv' hc' y hy

/-- Removing a list of nodes none of which is `t` keeps `t` in the
node set. -/
theorem mem_nodes_foldl_remove :
    ∀ (rem : List Nat) (g : Grph) (t : Nat),
    t ∈ g.nodes → (∀ y ∈ rem, y ≠ t) →
    t ∈ (rem.foldl (fun gg n => Grph.remove_node gg n) g).nodes
  | [], _, _, h, _ => h
  | y :: rest, g, t, h, hrem => by
    rw [List.foldl_cons]
    refine mem_nodes_foldl_remove rest _ t ?_
      (fun z hz => hrem z (List.mem_cons_of_mem _ hz))
    show t ∈ g.nodes.erase y
    exact (List.mem_erase_of_ne
      (Ne.symm (hrem y (List.mem_cons_self _ _)))).2 h

/-- C10: `bfs` with `to = false` collects only nodes reachable from
the start node through at least one edge and never the start node
itself; consequently the node removal of `update_dag` - which removes
exactly the nodes collected by the BFS from the selected SCC node
`t = cc[i][node]` - never removes `t`, which remains a node of
`graphs[i]` after the update. -/
theorem c10_bfs_strict_and_update_dag :
    (∀ (g : Grph) (s fuel : Nat), ∀ y ∈ bfs g s [] false 0 fuel,
      y ≠ s ∧ Relation.TransGen (EdgeStep g) s y) ∧
    (∀ (sd : SampleData) (c : SampleCache) (node fuel : Nat),
      lookD sd.ccS node 0 ∈ sd.dag.nodes →
      lookD sd.ccS node 0 ∈ (update_dag sd c node fuel).1.dag.nodes) := by
  constructor
  · intro g s fuel y hy
    refine bfsGo_sound g s fuel [s] [s] [] ?_ ?_ ?_ y hy
    · intro z hz
      rcases List.mem_singleton.1 hz with rfl
      exact Relation.ReflTransGen.refl
    · exact List.mem_singleton_self s
    · intro z hz
      cases hz
  · intro sd c node fuel hmem
    show lookD sd.ccS node 0 ∈
      ((bfs sd.dag (lookD sd.ccS node 0) [] false 0 fuel).foldl
        (fun g n => Grph.remove_node g n) sd.dag).nodes
    refine mem_nodes_foldl_remove _ sd.dag _ hmem ?_
    intro y hy
    refine (bfsGo_sound sd.dag (lookD sd.ccS node 0) fuel
      [lookD sd.ccS node 0] [lookD sd.ccS node 0] [] ?_ ?_ ?_ y hy).1
    · intro z hz
      rcases List.mem_singleton.1 hz with rfl
      exact Relation.ReflTransGen.refl
    · exact List.mem_singleton_self _
    · intro z hz
      cases hz

/-- C10, witness: on the graph `0 → 1` the collecting BFS from node 0
yields node 1 (reachable, distinct from the start), and on the live
sample of the same graph the selected SCC node survives its own
`update_dag`. -/
theorem c10_witness :
    ((1 : Nat) ≠ 0 ∧ Relation.TransGen (EdgeStep g01) 0 1) ∧
    lookD (sampleSetup g01 [] [true] 20).1.1.ccS 0 0
      ∈ (update_dag (sampleSetup g01 [] [true] 20).1.1
          (sampleSetup g01 [] [true] 20).1.2 0 20).1.dag.nodes :=
  ⟨c10_bfs_strict_and_update_dag.1 g01 0 10 1 (by with_unfolding_all decide),
   c10_bfs_strict_and_update_dag.2 (sampleSetup g01 [] [true] 20).1.1
     (sampleSetup g01 [] [true] 20).1.2 0 20
     (by with_unfolding_all decide)⟩

end OIM
